import Mathlib

/-!
Verification development for the polar-curve explorer (`src/polar.py`).

The file embeds, as Lean definitions, the domain logic of the program:
the uniform angle sampling (`np.linspace`), the negative-radius
normalization used for the traced curve in `animate` and for the static
plot in `PolarEquationApp.update_static_plot`, the abs-only reference
curve drawn by `polar_animator`, the per-frame angle computation, the
equation registry functions, the coefficient-driven `current_function`
dispatch, and the animation state manipulated by `start_animation`,
`toggle_pause`, `stop_animation` together with the per-frame ray-trail
bookkeeping of `animate`.
-/

namespace Polar

open Real

/-- `np.linspace a b n` with the default `endpoint=True`: `n` evenly
spaced samples from `a` to `b` inclusive, step `(b - a)/(n - 1)`.
(For `n = 1` the division by zero yields the sample `a`, matching
`np.linspace a b 1 = [a]`; for `n = 0` the list is empty.) -/
noncomputable def linspace (a b : ℝ) (n : ℕ) : List ℝ :=
  (List.range n).map (fun i : ℕ => a + (b - a) * (i : ℝ) / ((n : ℝ) - 1))

/-- One step of the normalization loop shared by `animate`
(lines 150–157) and `update_static_plot` (lines 441–447):
`if r >= 0:` keep `(t, r)`, `else:` emit `(t + π, |r|)`. -/
noncomputable def normalizePoint (f : ℝ → ℝ) (t : ℝ) : ℝ × ℝ :=
  if 0 ≤ f t then (t, f t) else (t + π, |f t|)

/-- The `curve_thetas`/`curve_rs` lists built by the `for t, r in zip`
loop of `animate` and of `update_static_plot`, as a list of pairs. -/
noncomputable def normalizeCurve (f : ℝ → ℝ) (ts : List ℝ) : List (ℝ × ℝ) :=
  ts.map (normalizePoint f)

/-- The traced sub-curve drawn at angle `theta` by `animate`:
`thetas = np.linspace(0, theta, 100)` fed through the normalization
loop. -/
noncomputable def tracedCurve (f : ℝ → ℝ) (theta : ℝ) : List (ℝ × ℝ) :=
  normalizeCurve f (linspace 0 theta 100)

/-- The static plot of `PolarEquationApp.update_static_plot`:
`thetas = np.linspace(0, 2*np.pi, 1000)` fed through the normalization
loop. -/
noncomputable def staticCurve (f : ℝ → ℝ) : List (ℝ × ℝ) :=
  normalizeCurve f (linspace 0 (2 * π) 1000)

/-- The light-gray reference curve of `polar_animator` (lines 43–49):
`ax.plot(theta_full, np.abs(r_full), ...)` — the radius is replaced by
its absolute value while the angle is kept unchanged. -/
noncomputable def fullCurvePlot (f : ℝ → ℝ) (ts : List ℝ) : List (ℝ × ℝ) :=
  ts.map (fun t => (t, |f t|))

/-- Cartesian interpretation of a polar pair `(θ, r)`:
`(r·cos θ, r·sin θ)`. -/
noncomputable def toCart (p : ℝ × ℝ) : ℝ × ℝ :=
  (p.2 * Real.cos p.1, p.2 * Real.sin p.1)

/-- `def circle(theta): return 2`. -/
noncomputable def circle (_theta : ℝ) : ℝ := 2

/-- `def cardioid(theta): return 2 * (1 + np.cos(theta))`. -/
noncomputable def cardioid (theta : ℝ) : ℝ := 2 * (1 + Real.cos theta)

/-- `def rose(theta): return 3 * np.cos(3 * theta)`. -/
noncomputable def rose (theta : ℝ) : ℝ := 3 * Real.cos (3 * theta)

/-- `def spiral(theta): return 0.5 * theta`. -/
noncomputable def spiral (theta : ℝ) : ℝ := 0.5 * theta

/-- `def limacon(theta): return 2 + 1 * np.cos(theta)`. -/
noncomputable def limacon (theta : ℝ) : ℝ := 2 + 1 * Real.cos theta

/-- The per-frame angle of `animate` (line 108):
`theta = 2 * np.pi * i / frames`. -/
noncomputable def thetaOf (frames i : ℕ) : ℝ := 2 * π * i / frames

/-- The closure `current_function` built by `update_static_plot`
(lines 410–421) and `start_animation` (lines 497–508): dispatch on the
selected equation name, reading coefficients from the current slider
values, falling through to `return 0` for an unknown name. -/
noncomputable def currentFunction (equationName : String) (coefValues : String → ℝ)
    (theta : ℝ) : ℝ :=
  if equationName = "Circle" then coefValues "a"
  else if equationName = "Cardioid" then
    coefValues "a" * (1 + Real.cos theta)
  else if equationName = "Rose" then
    coefValues "a" * Real.cos (coefValues "n" * theta)
  else if equationName = "Spiral" then coefValues "a" * theta
  else if equationName = "Limacon" then
    coefValues "a" + coefValues "b" * Real.cos theta
  else 0

/-- The five registered equation family names (keys of
`self.equations`). -/
def registeredNames : List String :=
  ["Circle", "Cardioid", "Rose", "Spiral", "Limacon"]

/-- The per-run animation state held by the `FuncAnimation` object
created in `polar_animator`: the current frame index, the total frame
count `frames`, and the `rays_collection` list of persistent ray angles
appended by `animate` (lines 119–121). -/
structure Session where
  frameIndex : ℕ
  frames : ℕ
  rays : List ℝ

/-- The frame-processing body of `animate` restricted to the retained
state: `if i % 10 == 0: rays_collection.append(new_ray)` where the new
ray is drawn at the current angle `theta = 2*np.pi*i/frames`
(lines 108 and 119–121). -/
noncomputable def processFrame (a : Session) : Session :=
  if a.frameIndex % 10 = 0 then
    { a with rays := a.rays ++ [thetaOf a.frames a.frameIndex] }
  else a

/-- The animation-related state of `PolarEquationApp`: `self.animation`
(`None` when no animation is active, i.e. the machine is Stopped) and
`self.is_paused`. -/
structure AppState where
  animation : Option Session
  isPaused : Bool

/-- Modelled from the spec: the timer-driven `tick` of matplotlib's
`FuncAnimation` (external to the repository; only its caller
`polar_animator` is in `src/`). Per §4.2 a tick fires only while
Running (an animation exists and is not paused), increments the frame
index modulo `frames`, and then runs the per-frame update `animate` at
the new index. -/
noncomputable def tick (s : AppState) : AppState :=
  match s.animation with
  | none => s
  | some a =>
    if s.isPaused then s
    else
      let a2 := processFrame { a with frameIndex := (a.frameIndex + 1) % a.frames }
      { s with animation := some a2 }

/-- `PolarEquationApp.start_animation` restricted to the animation
state: `self.is_paused = False` and a fresh `FuncAnimation` whose first
frame is frame 0 (per §4.2, `start` initializes the frame-0 values, so
frame 0 is processed once at start; `rays_collection` starts empty). -/
noncomputable def startAnimation (frames : ℕ) (_s : AppState) : AppState :=
  { animation := some (processFrame { frameIndex := 0, frames := frames, rays := [] }),
    isPaused := false }

/-- `PolarEquationApp.toggle_pause` (lines 375–394): does nothing when
no animation is active; otherwise stops or restarts the timer event
source and flips `self.is_paused`. The frame state inside
`self.animation` is not touched. -/
def togglePause (s : AppState) : AppState :=
  match s.animation with
  | none => s
  | some _ => { s with isPaused := !s.isPaused }

/-- `PolarEquationApp.stop_animation` (lines 578–614) restricted to the
animation state: when an animation is active its timer is stopped, the
figure is closed and `self.animation = None`; in every case
`self.is_paused = False`. All branches are wrapped in
`try/except: pass`, so no exception escapes. -/
def stopAnimation (s : AppState) : AppState :=
  match s.animation with
  | none => { animation := none, isPaused := false }
  | some _ => { animation := none, isPaused := false }

/-- The machine is Stopped: no active animation (`self.animation is
None`) and not flagged paused. -/
def Stopped (s : AppState) : Prop :=
  s.animation = none ∧ s.isPaused = false

/-- The state reached from a fresh start with frame count `F` after `n`
ticks. -/
noncomputable def afterTicks (F n : ℕ) : AppState :=
  tick^[n] (startAnimation F { animation := none, isPaused := false })

/-- Frame index of the active animation (`0` when Stopped). -/
def appFrameIndex (s : AppState) : ℕ :=
  match s.animation with
  | some a => a.frameIndex
  | none => 0

/-- Persistent-ray collection of the active animation (empty when
Stopped). -/
def appRays (s : AppState) : List ℝ :=
  match s.animation with
  | some a => a.rays
  | none => []

/-- The expected ray-trail after frames `0..n` of the first cycle: one
ray for each processed frame index that is a multiple of 10. -/
noncomputable def raysUpTo (F n : ℕ) : List ℝ :=
  (List.range (n / 10 + 1)).map (fun j => thetaOf F (10 * j))

/-- The data of the two point markers set by `animate` (lines 124–133):
`point` is the filled marker, `oppositePoint` the hollow one
(`none` models `set_data([], [])`, the hidden marker). -/
structure MarkerState where
  point : ℝ × ℝ
  oppositePoint : Option (ℝ × ℝ)

/-- The marker update of `animate` (lines 124–133): for `r = f(theta)`,
`if r >= 0:` filled point at `(theta, r)` and hollow marker hidden,
`else:` filled point at `(theta + π, |r|)` and hollow marker at
`(theta, 0)`. -/
noncomputable def markerUpdate (f : ℝ → ℝ) (theta : ℝ) : MarkerState :=
  if 0 ≤ f theta then
    { point := (theta, f theta), oppositePoint := none }
  else
    { point := (theta + π, |f theta|), oppositePoint := some (theta, 0) }

/-- `np.linspace a b n` has `n` entries. -/
theorem linspace_length (a b : ℝ) (n : ℕ) : (linspace a b n).length = n := by
  unfold linspace
  rw [List.length_map, List.length_range]

/-- The normalization loop emits one point per sampled angle. -/
theorem normalizeCurve_length (f : ℝ → ℝ) (ts : List ℝ) :
    (normalizeCurve f ts).length = ts.length := by
  unfold normalizeCurve
  rw [List.length_map]

/-- C1: for every function `f` and every sampled angle in the uniform
partition feeding the traced curve of `animate` or the static curve of
`update_static_plot`, the emitted point is `(θ, f θ)` when `f θ ≥ 0`
and `(θ + π, |f θ|)` when `f θ < 0`; both curves are the normalization
map over their `np.linspace` partitions. -/
theorem normalizeCurve_pointwise (f : ℝ → ℝ) (ts : List ℝ) (i : ℕ)
    (h : i < ts.length) (h2 : i < (normalizeCurve f ts).length) :
    ((normalizeCurve f ts).get ⟨i, h2⟩ =
        if 0 ≤ f (ts.get ⟨i, h⟩) then (ts.get ⟨i, h⟩, f (ts.get ⟨i, h⟩))
        else (ts.get ⟨i, h⟩ + π, |f (ts.get ⟨i, h⟩)|)) ∧
      tracedCurve f (ts.get ⟨i, h⟩) = normalizeCurve f (linspace 0 (ts.get ⟨i, h⟩) 100) ∧
      staticCurve f = normalizeCurve f (linspace 0 (2 * π) 1000) := by
  refine ⟨?_, rfl, rfl⟩
  simp [normalizeCurve, normalizePoint]

/-- Witness for C1: the static partition of the rose curve at index 0,
where `rose 0 = 3 ≥ 0`, emits `(0, 3)`. -/
theorem normalizeCurve_pointwise_witness :
    (0 : ℕ) < (linspace 0 (2 * π) 1000).length ∧
      (0 : ℕ) < (normalizeCurve rose (linspace 0 (2 * π) 1000)).length ∧
      ((normalizeCurve rose (linspace 0 (2 * π) 1000)).get
          ⟨0, by rw [normalizeCurve_length, linspace_length]; norm_num⟩ =
        if 0 ≤ rose ((linspace 0 (2 * π) 1000).get ⟨0, by rw [linspace_length]; norm_num⟩) then
          ((linspace 0 (2 * π) 1000).get ⟨0, by rw [linspace_length]; norm_num⟩,
            rose ((linspace 0 (2 * π) 1000).get ⟨0, by rw [linspace_length]; norm_num⟩))
        else
          ((linspace 0 (2 * π) 1000).get ⟨0, by rw [linspace_length]; norm_num⟩ + π,
            |rose ((linspace 0 (2 * π) 1000).get ⟨0, by rw [linspace_length]; norm_num⟩)|)) :=
  ⟨by rw [linspace_length]; norm_num, by rw [normalizeCurve_length, linspace_length]; norm_num,
    (normalizeCurve_pointwise rose (linspace 0 (2 * π) 1000) 0
        (by rw [linspace_length]; norm_num) (by rw [normalizeCurve_length, linspace_length]; norm_num)).1⟩

/-- C3: at an animation frame with angle `θ_i` and `r_i = f(θ_i)`:
if `r_i ≥ 0` the filled point is at `(θ_i, r_i)` and the hollow marker
is hidden; if `r_i < 0` the filled point is at `(θ_i + π, |r_i|)` and
the hollow marker is at `(θ_i, 0)`. -/
theorem markerUpdate_cases (f : ℝ → ℝ) (F i : ℕ) :
    (0 ≤ f (thetaOf F i) →
        markerUpdate f (thetaOf F i) =
          { point := (thetaOf F i, f (thetaOf F i)), oppositePoint := none }) ∧
      (f (thetaOf F i) < 0 →
        markerUpdate f (thetaOf F i) =
          { point := (thetaOf F i + π, |f (thetaOf F i)|),
            oppositePoint := some (thetaOf F i, 0) }) := by
  constructor
  · intro h
    simp [markerUpdate, h]
  · intro h
    simp [markerUpdate, not_le.mpr h]

/-- Witness for C3: the circle of radius 2 at frame 1 of 4 has
`r = 2 ≥ 0`, so the filled point sits at `(θ_1, 2)` and the hollow
marker is hidden. -/
theorem markerUpdate_cases_witness :
    0 ≤ circle (thetaOf 4 1) ∧
      markerUpdate circle (thetaOf 4 1) =
        { point := (thetaOf 4 1, circle (thetaOf 4 1)), oppositePoint := none } :=
  ⟨by norm_num [circle], (markerUpdate_cases circle 4 1).1 (by norm_num [circle])⟩

/-- C5: every normalized point has radius `≥ 0`; a negative-radius pair
`(θ, r)` and its normalized image `(θ + π, |r|)` denote the same
Cartesian point `(r·cos θ, r·sin θ)`; consequently normalization never
moves a point. -/
theorem normalizePoint_nonneg_same_cartesian :
    (∀ (f : ℝ → ℝ) (t : ℝ), 0 ≤ (normalizePoint f t).2) ∧
      (∀ t r : ℝ, r < 0 → toCart (t + π, |r|) = toCart (t, r)) ∧
      (∀ (f : ℝ → ℝ) (t : ℝ), toCart (normalizePoint f t) = toCart (t, f t)) := by
  have key : ∀ t r : ℝ, r < 0 → toCart (t + π, |r|) = toCart (t, r) := by
    intro t r hr
    simp only [toCart, Real.cos_add_pi, Real.sin_add_pi, abs_of_neg hr,
      Prod.mk.injEq]
    constructor <;> ring
  refine ⟨?_, key, ?_⟩
  · intro f t
    unfold normalizePoint
    by_cases h : 0 ≤ f t
    · simp [normalizePoint, h]
    · simp [h, abs_nonneg]
  · intro f t
    unfold normalizePoint
    by_cases h : 0 ≤ f t
    · simp [h]
    · simpa [h] using key t (f t) (not_le.mp h)

/-- Witness for C5: at `θ = 0`, `r = -1` the normalized pair
`(π, 1)` has the same Cartesian coordinates as `(0, -1)`. -/
theorem normalizePoint_nonneg_same_cartesian_witness :
    (-1 : ℝ) < 0 ∧ toCart ((0 : ℝ) + π, |(-1 : ℝ)|) = toCart (0, -1) :=
  ⟨by norm_num,
    normalizePoint_nonneg_same_cartesian.2.1 0 (-1) (by norm_num)⟩

/-- C10: for any equation name outside the five registered families the
constructed `current_function` returns `0` at every angle instead of
failing the lookup. -/
theorem currentFunction_unknown_name (name : String) (coef : String → ℝ)
    (theta : ℝ) (h : name ∉ registeredNames) :
    currentFunction name coef theta = 0 := by
  simp only [registeredNames, List.mem_cons, List.mem_singleton, not_or] at h
  obtain ⟨h1, h2, h3, h4, h5⟩ := h
  simp [currentFunction, h1, h2, h3, h4, h5]

/-- Witness for C10: the unregistered name `Ellipse` evaluates to `0`. -/
theorem currentFunction_unknown_name_witness :
    "Ellipse" ∉ registeredNames ∧
      currentFunction "Ellipse" (fun _ => 1) 0 = 0 :=
  ⟨by decide, currentFunction_unknown_name "Ellipse" (fun _ => 1) 0 (by decide)⟩

/-- The rose curve takes the value `-3` at `θ = π/3`. -/
theorem rose_pi_div_three : rose (π / 3) = -3 := by
  unfold rose
  rw [show (3 : ℝ) * (π / 3) = π by ring, Real.cos_pi]
  norm_num

/-- C2, counterexample: at the sample `θ = π/3` of the rose curve
(`r = -3 < 0`) the reference curve of `polar_animator` emits
`(π/3, 3)` — the angle is not remapped to `θ + π`, and the emitted
point does not lie on the same Cartesian point as `(π/3, -3)`. -/
theorem fullCurvePlot_counterexample :
    rose (π / 3) < 0 ∧
      fullCurvePlot rose [π / 3] = [(π / 3, 3)] ∧
      normalizePoint rose (π / 3) = (π / 3 + π, 3) ∧
      toCart (π / 3, 3) ≠ toCart (π / 3, rose (π / 3)) := by
  refine ⟨by rw [rose_pi_div_three]; norm_num, ?_, ?_, ?_⟩
  · unfold fullCurvePlot
    rw [List.map_singleton, rose_pi_div_three]
    norm_num
  · unfold normalizePoint
    rw [rose_pi_div_three]
    norm_num
  · intro h
    have h1 := congrArg Prod.fst h
    rw [rose_pi_div_three] at h1
    simp only [toCart, cos_pi_div_three] at h1
    norm_num at h1

/-- C2, amended: the reference curve of `polar_animator` plots
`(θ, |f θ|)` for every sample `θ`: all plotted radii are `≥ 0`, but the
angle is never remapped, so a negative-radius sample is plotted at the
reflection through the origin of the true point rather than at the same
Cartesian point; the `(θ+π, |r|)` remapping is used only by the traced
curve and by the app's static plot. -/
theorem fullCurvePlot_abs_only (f : ℝ → ℝ) (ts : List ℝ) (p : ℝ × ℝ)
    (h : p ∈ fullCurvePlot f ts) :
    0 ≤ p.2 ∧ p.1 ∈ ts ∧ p.2 = |f p.1| := by
  unfold fullCurvePlot at h
  obtain ⟨t, ht, rfl⟩ := List.mem_map.mp h
  exact ⟨abs_nonneg _, ht, rfl⟩

/-- Witness for C2's amended theorem: the point the reference curve
emits for the circle at `θ = 0`. -/
theorem fullCurvePlot_abs_only_witness :
    ((0 : ℝ), (2 : ℝ)) ∈ fullCurvePlot circle [0] ∧
      (0 ≤ (2 : ℝ) ∧ (0 : ℝ) ∈ [(0 : ℝ)] ∧ (2 : ℝ) = |circle 0|) := by
  have hm : ((0 : ℝ), (2 : ℝ)) ∈ fullCurvePlot circle [0] := by
    unfold fullCurvePlot circle
    norm_num
  exact ⟨hm, fullCurvePlot_abs_only circle [0] (0, 2) hm⟩

/-- `np.linspace(0, 2π, 4)` (the code's sampling at resolution 4):
step `2π/3`, endpoint `2π` included. -/
theorem linspace_res_four :
    linspace 0 (2 * π) 4 = [0, 2 * π / 3, 4 * π / 3, 2 * π] := by
  unfold linspace
  rw [show List.range 4 = [0, 1, 2, 3] from rfl]
  simp only [List.map_cons, List.map_nil, List.cons.injEq, and_true]
  norm_num
  ring

/-- Sampling the circle of radius 2 over the code's resolution-4
partition. -/
theorem normalizeCurve_circle_four :
    normalizeCurve circle (linspace 0 (2 * π) 4) =
      [(0, 2), (2 * π / 3, 2), (4 * π / 3, 2), (2 * π, 2)] := by
  rw [linspace_res_four]
  unfold normalizeCurve normalizePoint circle
  norm_num

/-- C6, counterexample: the code samples with `np.linspace(0, 2π, n)`,
which includes the endpoint `2π`; at resolution 4 the circle of radius
2 is NOT sampled at `[0, π/2, π, 3π/2]` as the claim states. -/
theorem sample_res_four_counterexample :
    normalizeCurve circle (linspace 0 (2 * π) 4) ≠
      [(0, 2), (π / 2, 2), (π, 2), (3 * π / 2, 2)] := by
  rw [normalizeCurve_circle_four]
  intro h
  simp only [List.cons.injEq, Prod.mk.injEq] at h
  have h1 : 2 * π / 3 = π / 2 := h.2.1.1
  have hπ := Real.pi_pos
  linarith

/-- C6, amended: the uniform partition of `[0, 2π]` at resolution `n`
has step `2π/(n-1)` and includes the endpoint `2π`; sampling the
constant function `f(θ) = 2` at resolution 4 yields
`[(0,2), (2π/3,2), (4π/3,2), (2π,2)]`. -/
theorem sample_res_four :
    linspace 0 (2 * π) 4 = [0, 2 * π / 3, 4 * π / 3, 2 * π] ∧
      normalizeCurve circle (linspace 0 (2 * π) 4) =
        [(0, 2), (2 * π / 3, 2), (4 * π / 3, 2), (2 * π, 2)] :=
  ⟨linspace_res_four, normalizeCurve_circle_four⟩

/-- A tick on a running, unpaused state advances the frame index modulo
`frames` and then processes the new frame. -/
theorem tick_running (a : Session) :
    tick { animation := some a, isPaused := false } =
      { animation :=
          some (processFrame { a with frameIndex := (a.frameIndex + 1) % a.frames }),
        isPaused := false } := rfl

/-- Unfolding of `afterTicks` by one tick. -/
theorem afterTicks_succ (F n : ℕ) :
    afterTicks F (n + 1) = tick (afterTicks F n) := by
  unfold afterTicks
  rw [Function.iterate_succ_apply']

/-- The expected ray-trail grows by one exactly when the newly processed
frame index is a multiple of 10. -/
theorem raysUpTo_succ (F n : ℕ) :
    raysUpTo F (n + 1) =
      if (n + 1) % 10 = 0 then raysUpTo F n ++ [thetaOf F (n + 1)]
      else raysUpTo F n := by
  unfold raysUpTo
  by_cases h : (n + 1) % 10 = 0
  · rw [if_pos h]
    have h1 : (n + 1) / 10 = n / 10 + 1 := by omega
    have h2 : 10 * (n / 10 + 1) = n + 1 := by omega
    rw [h1, List.range_succ, List.map_append, List.map_singleton, h2]
  · rw [if_neg h]
    have h1 : (n + 1) / 10 = n / 10 := by omega
    rw [h1]

/-- The expected ray-trail after frames `0..n` has `n / 10 + 1`
entries. -/
theorem raysUpTo_length (F n : ℕ) :
    (raysUpTo F n).length = n / 10 + 1 := by
  unfold raysUpTo
  rw [List.length_map, List.length_range]

/-- Within the first cycle (`n < F`), the state after `n` ticks holds
frame index `n` and exactly the expected ray-trail, and is not
paused. -/
theorem afterTicks_first_cycle (F : ℕ) :
    ∀ n, n < F →
      afterTicks F n =
        { animation := some { frameIndex := n, frames := F, rays := raysUpTo F n },
          isPaused := false } := by
  intro n
  induction n with
  | zero =>
    intro _
    unfold afterTicks startAnimation processFrame raysUpTo
    rw [show List.range 1 = [0] from rfl]
    simp
  | succ n ih =>
    intro h
    rw [afterTicks_succ, ih (Nat.lt_of_succ_lt h), tick_running]
    simp only
    rw [Nat.mod_eq_of_lt h]
    unfold processFrame
    rw [raysUpTo_succ]
    by_cases h10 : (n + 1) % 10 = 0
    · simp [h10]
    · simp [h10]

/-- After `n` ticks from a fresh start the frame index is `n % F`; the
animation stays active and unpaused. -/
theorem afterTicks_mod (F : ℕ) :
    ∀ n, ∃ rl,
      afterTicks F n =
        { animation := some { frameIndex := n % F, frames := F, rays := rl },
          isPaused := false } := by
  intro n
  induction n with
  | zero =>
    refine ⟨raysUpTo F 0, ?_⟩
    unfold afterTicks startAnimation processFrame raysUpTo
    rw [show List.range 1 = [0] from rfl]
    simp
  | succ n ih =>
    obtain ⟨rl, hrl⟩ := ih
    rw [afterTicks_succ, hrl, tick_running]
    simp only
    rw [Nat.mod_add_mod]
    unfold processFrame
    by_cases h10 : ((n + 1) % F) % 10 = 0
    · exact ⟨rl ++ [thetaOf F ((n + 1) % F)], by simp [h10]⟩
    · exact ⟨rl, by simp [h10]⟩

/-- C4: the per-frame update computes `θ_i = 2π·i/F`; `θ_i` is strictly
increasing in `i` over one cycle; after `F` ticks the frame index wraps
to `0` (where `θ = 0`); with `frames = 4`, after 2 ticks the frame
index is `2` and `θ_2 = π`. -/
theorem theta_formula_monotone_wrap (F i j : ℕ) :
    thetaOf F i = 2 * π * i / F ∧
      (i < j → j < F → thetaOf F i < thetaOf F j) ∧
      (appFrameIndex (afterTicks F F) = 0 ∧ thetaOf F 0 = 0) ∧
      (appFrameIndex (afterTicks 4 2) = 2 ∧ thetaOf 4 2 = π) := by
  refine ⟨rfl, ?_, ⟨?_, ?_⟩, ⟨?_, ?_⟩⟩
  · intro hij hjF
    have hF : 0 < F := lt_of_le_of_lt (Nat.zero_le j) hjF
    have hFr : (0 : ℝ) < F := by exact_mod_cast hF
    have hir : (i : ℝ) < j := by exact_mod_cast hij
    have hπ := Real.pi_pos
    unfold thetaOf
    have hnum : 2 * π * (i : ℝ) < 2 * π * j := by nlinarith
    exact div_lt_div_of_pos_right hnum hFr
  · obtain ⟨rl, h⟩ := afterTicks_mod F F
    rw [h]
    simp [appFrameIndex, Nat.mod_self]
  · simp [thetaOf]
  · obtain ⟨rl, h⟩ := afterTicks_mod 4 2
    rw [h]
    simp [appFrameIndex]
  · unfold thetaOf
    push_cast
    ring

/-- Witness for C4: with `F = 4`, `θ_1 < θ_2`. -/
theorem theta_formula_monotone_wrap_witness :
    1 < 2 ∧ 2 < 4 ∧ thetaOf 4 1 < thetaOf 4 2 :=
  ⟨by norm_num, by norm_num,
    (theta_formula_monotone_wrap 4 1 2).2.1 (by norm_num) (by norm_num)⟩

/-- C7: from a running, unpaused state, `pause` (one `toggle_pause`)
followed by `resume` (a second `toggle_pause`) with no tick in between
restores the state exactly — in particular the frame index and all
frame-derived state are unchanged, and subsequent ticking proceeds
exactly as it would have without the pause (no replayed, no skipped
frames). -/
theorem pause_resume_preserves_frame (s : AppState) (a : Session)
    (h : s.animation = some a) (hp : s.isPaused = false) :
    togglePause s = { s with isPaused := true } ∧
      appFrameIndex (togglePause s) = a.frameIndex ∧
      togglePause (togglePause s) = s ∧
      tick (togglePause (togglePause s)) = tick s := by
  obtain ⟨anim, p⟩ := s
  simp only at h hp
  subst h
  subst hp
  have h2 : togglePause (togglePause ⟨some a, false⟩) =
      ({ animation := some a, isPaused := false } : AppState) := by
    simp [togglePause]
  exact ⟨by simp [togglePause], by simp [togglePause, appFrameIndex], h2, by rw [h2]⟩

/-- Witness for C7: a running animation at frame 3 of 8. -/
theorem pause_resume_preserves_frame_witness :
    (({ animation := some { frameIndex := 3, frames := 8, rays := [] },
        isPaused := false } : AppState).animation =
        some { frameIndex := 3, frames := 8, rays := [] }) ∧
      togglePause (togglePause
          { animation := some { frameIndex := 3, frames := 8, rays := [] },
            isPaused := false }) =
        { animation := some { frameIndex := 3, frames := 8, rays := [] },
          isPaused := false } :=
  ⟨rfl,
    (pause_resume_preserves_frame
        { animation := some { frameIndex := 3, frames := 8, rays := [] },
          isPaused := false }
        { frameIndex := 3, frames := 8, rays := [] } rfl rfl).2.2.1⟩

/-- C8: `stop_animation` on an already-Stopped machine (no active
animation) is a total function in this model — the original wraps every
fallible call in `try/except: pass`, so it never raises — and it leaves
the state unchanged: still Stopped, with no retained animation
state. -/
theorem stop_on_stopped_noop (s : AppState) (h : Stopped s) :
    stopAnimation s = s ∧ Stopped (stopAnimation s) ∧
      stopAnimation (stopAnimation s) = stopAnimation s := by
  obtain ⟨anim, p⟩ := s
  obtain ⟨h1, h2⟩ := h
  simp only at h1 h2
  subst h1
  subst h2
  exact ⟨rfl, ⟨rfl, rfl⟩, rfl⟩

/-- Witness for C8: the Stopped state itself. -/
theorem stop_on_stopped_noop_witness :
    Stopped { animation := none, isPaused := false } ∧
      stopAnimation { animation := none, isPaused := false } =
        { animation := none, isPaused := false } :=
  ⟨⟨rfl, rfl⟩,
    (stop_on_stopped_noop { animation := none, isPaused := false } ⟨rfl, rfl⟩).1⟩

/-- C9: a tick never removes a persistent ray (the old collection is a
prefix of the new one); processing a frame appends exactly one ray at
the current angle when the frame index is a multiple of 10 and leaves
the collection unchanged otherwise; hence after processing frames
`0..n` of the first cycle the collection holds exactly `n / 10 + 1`
rays. -/
theorem ray_trail_growth (F n : ℕ) :
    (∀ t : AppState, appRays t <+: appRays (tick t)) ∧
      (∀ b : Session,
        (b.frameIndex % 10 = 0 →
            (processFrame b).rays = b.rays ++ [thetaOf b.frames b.frameIndex]) ∧
          (b.frameIndex % 10 ≠ 0 → (processFrame b).rays = b.rays)) ∧
      (n < F →
        appRays (afterTicks F n) = raysUpTo F n ∧
          (appRays (afterTicks F n)).length = n / 10 + 1) := by
  refine ⟨?_, ?_, ?_⟩
  · intro t
    obtain ⟨anim, p⟩ := t
    cases anim with
    | none => exact List.prefix_rfl
    | some a =>
      cases p with
      | true => exact List.prefix_rfl
      | false =>
        rw [tick_running]
        unfold appRays processFrame
        by_cases h10 : ((a.frameIndex + 1) % a.frames) % 10 = 0
        · simp only [h10, if_pos]
          exact List.prefix_append _ _
        · simp [h10]
  · intro b
    constructor
    · intro h10
      unfold processFrame
      simp [h10]
    · intro h10
      unfold processFrame
      simp [h10]
  · intro hnF
    rw [afterTicks_first_cycle F n hnF]
    exact ⟨rfl, raysUpTo_length F n⟩

/-- Witness for C9: after 15 ticks of a 200-frame run the trail holds
`15 / 10 + 1 = 2` rays. -/
theorem ray_trail_growth_witness :
    15 < 200 ∧ (appRays (afterTicks 200 15)).length = 15 / 10 + 1 :=
  ⟨by norm_num, ((ray_trail_growth 200 15).2.2 (by norm_num)).2⟩

end Polar
